import Mathlib

/-!
Verification of the maildir discovery and ordering core of `mutt-maildirs`
(`src/main.rs`), shallowly embedded in Lean.

Modelling conventions:

* Filesystem paths (`Path` / `PathBuf`) are modelled as their component
  sequences, `List String`.  Equality of `PathBuf` is component-wise, which is
  exactly list equality here.
* The filesystem under the base directory is modelled as an optional forest of
  entries: `none` means the base does not exist or is not a directory (in which
  case `WalkDir` produces no usable entries: the single error entry is dropped
  by `filter_map(Result::ok)`, and a non-directory root is pruned by
  `filter_entry(is_dir)`); `some cs` means the base is a directory with
  children `cs`.
* `WalkDir::new(base).into_iter().filter_entry(is_dir)` is modelled by
  `walkBase`: a depth-first pre-order walk that yields the base itself and
  every directory strictly below it, pruning at files (which `is_dir` filters
  out together with their subtrees).
* Rust panics (`panic!`) are modelled as `Except.error`; they abort the whole
  computation, hence `list_maildirs` returns `Except`.
* `env::home_dir()` is modelled as an `Option String` argument.
* `Vec::sort` on `PathBuf` is a stable merge sort under `PathBuf`'s `Ord`,
  which compares component sequences lexicographically; it is modelled by
  `List.mergeSort` with the lexicographic comparison `pathLe`.
-/

/-- A filesystem entry: a directory (with named children) or a non-directory. -/
inductive FSEntry where
  | dir (name : String) (children : List FSEntry)
  | file (name : String)

/-- The base name of an entry. -/
def FSEntry.name : FSEntry → String
  | .dir n _ => n
  | .file n => n

mutual
/-- Walk a single entry whose parent directory has path `path`: yields the
entry itself (if it is a directory) followed by the walk of its children.
Files are pruned, modelling `filter_entry(is_dir)`. -/
def walkEntry (path : List String) : FSEntry → List (List String)
  | .file _ => []
  | .dir n cs => (path ++ [n]) :: walkForest (path ++ [n]) cs

/-- Walk a list of sibling entries, all below the directory `path`. -/
def walkForest (path : List String) : List FSEntry → List (List String)
  | [] => []
  | e :: es => walkEntry path e ++ walkForest path es
end

/-- The full walk rooted at `base`: `WalkDir` yields the root entry itself
first, then its contents.  A missing / non-directory base yields nothing. -/
def walkBase (base : List String) : Option (List FSEntry) → List (List String)
  | none => []
  | some cs => base :: walkForest base cs

/-- Sibling entries of a real directory have pairwise distinct names. -/
def distinctNames : List FSEntry → Bool
  | [] => true
  | e :: es => es.all (fun x => x.name != e.name) && distinctNames es

mutual
/-- Well-formedness of an entry: in every directory, children have pairwise
distinct names (true of any real filesystem). -/
def wfEntry : FSEntry → Bool
  | .file _ => true
  | .dir _ cs => distinctNames cs && wfChildren cs

/-- Well-formedness of a list of entries. -/
def wfChildren : List FSEntry → Bool
  | [] => true
  | e :: es => wfEntry e && wfChildren es
end

/-- Well-formedness of the modelled filesystem under the base. -/
def wfFS : Option (List FSEntry) → Bool
  | none => true
  | some cs => distinctNames cs && wfChildren cs

/-- Model of `Path::parent`: `None` for the root / empty path, otherwise the
path with its last component removed. -/
def parentPath : List String → Option (List String)
  | [] => none
  | xs => some xs.dropLast

/-- Model of `Path::strip_prefix`: succeeds iff `base`'s components are a
prefix of `p`'s, returning the remaining components. -/
def stripBase (base p : List String) : Option (List String) :=
  if base.isPrefixOf p then some (p.drop base.length) else none

/-- `is_cur` from the source: the entry's file name equals `"cur"`.  The file
name of a path is its last component. -/
def is_cur (p : List String) : Bool := p.getLast? == some "cur"

/-- `is_excluded` from the source: membership (component-wise `PathBuf`
equality) in the exclusion list. -/
def is_excluded (entry : List String) (excluded : List (List String)) : Bool :=
  excluded.contains entry

/-- `is_initial` from the source: membership in the initial (priority) list. -/
def is_initial (maildir : List String) (initial : List (List String)) : Bool :=
  initial.contains maildir

/-- `maildir_path` from the source: take the parent of the marker path and
strip the base prefix; either failure is a `panic!`, modelled as `error`. -/
def maildir_path (base p : List String) : Except String (List String) :=
  match parentPath p with
  | none => .error "No parent directory"
  | some x =>
    match stripBase base x with
    | none => .error "prefix not found"
    | some m => .ok m

/-- `.map(|e| maildir_path(&base, e.path()))` with panic propagation: maps
`maildir_path` over the marker paths, aborting on the first panic. -/
def mapPaths (base : List String) : List (List String) → Except String (List (List String))
  | [] => .ok []
  | p :: ps =>
    match maildir_path base p with
    | .error e => .error e
    | .ok m =>
      match mapPaths base ps with
      | .error e => .error e
      | .ok ms => .ok (m :: ms)

/-- The discovery pipeline of `list_maildirs` up to (and excluding) the
exclusion filter: walk, keep `cur` markers, derive maildir paths. -/
def discoveredDirs (base : List String) (fs : Option (List FSEntry)) :
    Except String (List (List String)) :=
  mapPaths base ((walkBase base fs).filter is_cur)

/-- `PathBuf`'s `Ord`: lexicographic comparison of component sequences, with
components compared as strings. -/
def pathLe : List String → List String → Bool
  | [], _ => true
  | _ :: _, [] => false
  | x :: xs, y :: ys => if x = y then pathLe xs ys else decide (x < y)

/-- Strict version of `pathLe`. -/
def pathLt (a b : List String) : Bool := pathLe a b && !(a == b)

/-- `list_maildirs` from the source.  `base` is the already-expanded base path
(the source first applies `expand_path`; expansion is modelled separately by
`expand_path` below at the string level).  `fs` is the filesystem under
`base`. -/
def list_maildirs (base : List String) (fs : Option (List FSEntry))
    (initial excluded : List (List String)) : Except String (List (List String)) :=
  match discoveredDirs base fs with
  | .error e => .error e
  | .ok ds =>
    let dirs := ds.filter (fun e => !is_excluded e excluded)
    let found_initial := dirs.filter (fun d => is_initial d initial)
    let maildirs := dirs.filter (fun d => !is_initial d initial)
    let initial_order := initial.filter (fun m => found_initial.contains m)
    .ok (initial_order ++ maildirs.mergeSort pathLe)

/-- Model of `str::starts_with`: the argument is a prefix of the string's
character sequence. -/
def starts_with (s pre : String) : Bool := pre.toList.isPrefixOf s.toList

/-- Model of `str::ends_with`: the argument is a suffix of the string's
character sequence. -/
def ends_with (s post : String) : Bool := post.toList.isSuffixOf s.toList

/-- Model of `PathBuf::push` / `Path::join` on Unix path strings: an absolute
argument replaces the base; otherwise a separator is inserted when needed. -/
def pathJoin (base rest : String) : String :=
  if starts_with rest "/" then rest
  else if ends_with base "/" || base == "" then base ++ rest
  else base ++ "/" ++ rest

/-- `expand_path` from the source, with `env::home_dir()` passed in as
`home`.  The `panic!` on a missing home directory is modelled as `error`. -/
def expand_path (home : Option String) (path : String) : Except String String :=
  let cut_len := 0
  let cut_len := if starts_with path "~" then 1 else cut_len
  let cut_len := if starts_with path "~/" then 2 else cut_len
  if cut_len = 0 then .ok path
  else
    match home with
    | none => .error "Could not get your home dir."
    | some h => .ok (pathJoin h (path.drop cut_len))

/-- The output formatting in `main`: each maildir is wrapped as
`+\x27<path>\x27` and the entries are joined with single spaces. -/
def format_maildir (m : List String) : String :=
  "+\x27" ++ String.intercalate "/" m ++ "\x27"

/-- The single output line printed by `main`. -/
def format_output (ms : List (List String)) : String :=
  String.intercalate " " (ms.map format_maildir)

/-! ### Structural lemmas about the walk -/

theorem walkForest_mem {path q : List String} {cs : List FSEntry} :
    q ∈ walkForest path cs ↔ ∃ e ∈ cs, q ∈ walkEntry path e := by
  induction cs with
  | nil => simp [walkForest]
  | cons e es ih =>
    simp [walkForest, List.mem_append, ih]

@[simp] theorem FSEntry.name_dir (n : String) (cs : List FSEntry) :
    (FSEntry.dir n cs).name = n := rfl

@[simp] theorem FSEntry.name_file (n : String) : (FSEntry.file n).name = n := rfl

mutual
theorem walkEntry_shape : ∀ (e : FSEntry) (path q : List String),
    q ∈ walkEntry path e → ∃ r, q = path ++ e.name :: r
  | .file _, _, _, h => by simp [walkEntry] at h
  | .dir n cs, path, q, h => by
    simp only [walkEntry, List.mem_cons] at h
    rcases h with h | h
    · exact ⟨[], by simp [h]⟩
    · obtain ⟨e, he, r, hq⟩ := walkForest_shape cs (path ++ [n]) q h
      exact ⟨e.name :: r, by simpa [List.append_assoc] using hq⟩

theorem walkForest_shape : ∀ (cs : List FSEntry) (path q : List String),
    q ∈ walkForest path cs → ∃ e ∈ cs, ∃ r, q = path ++ e.name :: r
  | [], _, _, h => by simp [walkForest] at h
  | e :: es, path, q, h => by
    simp only [walkForest, List.mem_append] at h
    rcases h with h | h
    · obtain ⟨r, hr⟩ := walkEntry_shape e path q h
      exact ⟨e, by simp, r, hr⟩
    · obtain ⟨e', he', r, hr⟩ := walkForest_shape es path q h
      exact ⟨e', by simp [he'], r, hr⟩
end

theorem length_lt_of_mem_walkForest {path q : List String} {cs : List FSEntry}
    (h : q ∈ walkForest path cs) : path.length < q.length := by
  obtain ⟨e, -, r, rfl⟩ := walkForest_shape cs path q h
  simp

mutual
theorem walkEntry_nodup : ∀ (e : FSEntry) (path : List String),
    wfEntry e = true → (walkEntry path e).Nodup
  | .file _, _, _ => by simp [walkEntry]
  | .dir n cs, path, h => by
    simp only [wfEntry, Bool.and_eq_true] at h
    simp only [walkEntry]
    refine List.nodup_cons.mpr ⟨?_, walkForest_nodup cs (path ++ [n]) h.1 h.2⟩
    intro hmem
    have := length_lt_of_mem_walkForest hmem
    simp at this

theorem walkForest_nodup : ∀ (cs : List FSEntry) (path : List String),
    distinctNames cs = true → wfChildren cs = true → (walkForest path cs).Nodup
  | [], _, _, _ => by simp [walkForest]
  | e :: es, path, hd, hc => by
    simp only [distinctNames, Bool.and_eq_true, List.all_eq_true] at hd
    simp only [wfChildren, Bool.and_eq_true] at hc
    simp only [walkForest]
    refine List.Nodup.append (walkEntry_nodup e path hc.1)
      (walkForest_nodup es path hd.2 hc.2) ?_
    intro q hq1 hq2
    obtain ⟨r, hr⟩ := walkEntry_shape e path q hq1
    obtain ⟨e', he', r', hr'⟩ := walkForest_shape es path q hq2
    rw [hr] at hr'
    have hname : e.name = e'.name := (List.cons.inj (List.append_cancel_left hr')).1
    have hne : e'.name ≠ e.name := by
      have := hd.1 e' he'
      simpa [bne_iff_ne] using this
    exact hne hname.symm
end

/-- Under a well-formed filesystem the walk visits each directory once. -/
theorem walkBase_nodup {base : List String} {fs : Option (List FSEntry)}
    (h : wfFS fs = true) : (walkBase base fs).Nodup := by
  cases fs with
  | none => simp [walkBase]
  | some cs =>
    simp only [wfFS, Bool.and_eq_true] at h
    simp only [walkBase]
    refine List.nodup_cons.mpr ⟨?_, walkForest_nodup cs base h.1 h.2⟩
    intro hmem
    have := length_lt_of_mem_walkForest hmem
    simp at this

/-- Every element of the walk other than the base lies strictly below it. -/
theorem mem_walkBase_strict {base q : List String} {fs : Option (List FSEntry)}
    (h : q ∈ walkBase base fs) (hne : q ≠ base) : ∃ r, q = base ++ r ∧ r ≠ [] := by
  cases fs with
  | none => simp [walkBase] at h
  | some cs =>
    simp only [walkBase, List.mem_cons] at h
    rcases h with h | h
    · exact absurd h hne
    · obtain ⟨e, -, r, hr⟩ := walkForest_shape cs base q h
      exact ⟨e.name :: r, hr, by simp⟩

theorem mem_walkForest_of_mem {path q : List String} {e : FSEntry} {cs : List FSEntry}
    (he : e ∈ cs) (hq : q ∈ walkEntry path e) : q ∈ walkForest path cs :=
  walkForest_mem.mpr ⟨e, he, hq⟩

/-! ### Lemmas about `maildir_path` -/

theorem parentPath_eq_some {p x : List String} :
    parentPath p = some x ↔ p ≠ [] ∧ x = p.dropLast := by
  cases p <;> simp [parentPath, eq_comm]

theorem stripBase_eq_some {base x m : List String} :
    stripBase base x = some m ↔ x = base ++ m := by
  constructor
  · intro h
    simp only [stripBase] at h
    split at h
    · next hp =>
      obtain ⟨t, rfl⟩ := List.isPrefixOf_iff_prefix.mp hp
      simp_all [List.drop_left]
    · exact absurd h (by simp)
  · rintro rfl
    simp [stripBase, List.drop_left]

/-- Successful `maildir_path` inverted: the parent of `p` is the base followed
by the returned maildir path. -/
theorem maildir_path_ok {base p m : List String} :
    maildir_path base p = .ok m ↔ p ≠ [] ∧ p.dropLast = base ++ m := by
  unfold maildir_path
  constructor
  · intro h
    split at h
    · exact absurd h (by simp)
    · next x hx =>
      obtain ⟨hne, rfl⟩ := parentPath_eq_some.mp hx
      split at h
      · exact absurd h (by simp)
      · next m' hm' =>
        cases h
        exact ⟨hne, stripBase_eq_some.mp hm'⟩
  · rintro ⟨hne, hdl⟩
    rw [parentPath_eq_some.mpr ⟨hne, rfl⟩]
    simp [stripBase_eq_some.mpr hdl]

/-- On a path ending in the marker component, a successful `maildir_path`
determines the whole path. -/
theorem maildir_path_ok_cur {base p m : List String}
    (hok : maildir_path base p = .ok m) (hcur : is_cur p = true) :
    p = base ++ m ++ ["cur"] := by
  obtain ⟨hne, hdl⟩ := maildir_path_ok.mp hok
  have hlast : "cur" ∈ p.getLast? := by
    simpa [is_cur] using hcur
  have := List.dropLast_append_getLast? _ hlast
  rw [hdl] at this
  simpa [List.append_assoc] using this.symm

/-- `maildir_path` on a path strictly below the base: always succeeds and
returns the parent with the base stripped. -/
theorem maildir_path_below {base r : List String} (h : r ≠ []) :
    maildir_path base (base ++ r) = .ok r.dropLast := by
  refine maildir_path_ok.mpr ⟨by simp [h], ?_⟩
  rw [List.dropLast_append_of_ne_nil base h]

/-! ### Lemmas about `mapPaths` -/

theorem mapPaths_cons_ok {base p m : List String} {ps ms : List (List String)} :
    mapPaths base (p :: ps) = .ok (m :: ms) ↔
      maildir_path base p = .ok m ∧ mapPaths base ps = .ok ms := by
  constructor
  · intro h
    simp only [mapPaths] at h
    split at h
    · exact absurd h (by simp)
    · next m' hm' =>
      split at h
      · exact absurd h (by simp)
      · next ms' hms' =>
        cases h
        exact ⟨hm', hms'⟩
  · rintro ⟨h1, h2⟩
    simp [mapPaths, h1, h2]

theorem mapPaths_ok_cons {base p : List String} {ps rs : List (List String)}
    (h : mapPaths base (p :: ps) = .ok rs) :
    ∃ m ms, rs = m :: ms ∧ maildir_path base p = .ok m ∧ mapPaths base ps = .ok ms := by
  simp only [mapPaths] at h
  split at h
  · exact absurd h (by simp)
  · next m hm =>
    split at h
    · exact absurd h (by simp)
    · next ms hms =>
      cases h
      exact ⟨m, ms, rfl, hm, hms⟩

theorem mapPaths_ok_mem {base : List String} {ps ms : List (List String)}
    (h : mapPaths base ps = .ok ms) :
    ∀ p ∈ ps, ∃ m ∈ ms, maildir_path base p = .ok m := by
  induction ps generalizing ms with
  | nil => simp
  | cons p ps ih =>
    obtain ⟨m, ms', rfl, hm, hms⟩ := mapPaths_ok_cons h
    intro q hq
    rcases List.mem_cons.mp hq with rfl | hq
    · exact ⟨m, by simp, hm⟩
    · obtain ⟨m', hm', hq'⟩ := ih hms q hq
      exact ⟨m', by simp [hm'], hq'⟩

theorem mapPaths_mem_ok {base : List String} {ps ms : List (List String)}
    (h : mapPaths base ps = .ok ms) :
    ∀ m ∈ ms, ∃ p ∈ ps, maildir_path base p = .ok m := by
  induction ps generalizing ms with
  | nil => simp only [mapPaths] at h; cases h; simp
  | cons p ps ih =>
    obtain ⟨m, ms', rfl, hm, hms⟩ := mapPaths_ok_cons h
    intro q hq
    rcases List.mem_cons.mp hq with rfl | hq
    · exact ⟨p, by simp, hm⟩
    · obtain ⟨p', hp', hq'⟩ := ih hms q hq
      exact ⟨p', by simp [hp'], hq'⟩

/-- When every marker path maps successfully, the derived maildir paths of
distinct `cur`-marked paths are distinct. -/
theorem mapPaths_nodup {base : List String} {ps ms : List (List String)}
    (h : mapPaths base ps = .ok ms) (hnd : ps.Nodup)
    (hcur : ∀ p ∈ ps, is_cur p = true) : ms.Nodup := by
  induction ps generalizing ms with
  | nil => simp only [mapPaths] at h; cases h; simp
  | cons p ps ih =>
    obtain ⟨m, ms', rfl, hm, hms⟩ := mapPaths_ok_cons h
    rw [List.nodup_cons] at hnd ⊢
    refine ⟨?_, ih hms hnd.2 (fun q hq => hcur q (by simp [hq]))⟩
    intro hmem
    obtain ⟨p', hp', hok'⟩ := mapPaths_mem_ok hms m hmem
    have e1 : p = base ++ m ++ ["cur"] := maildir_path_ok_cur hm (hcur p (by simp))
    have e2 : p' = base ++ m ++ ["cur"] := maildir_path_ok_cur hok' (hcur p' (by simp [hp']))
    exact hnd.1 (e1 ▸ e2 ▸ hp')

/-! ### The lexicographic path order -/

theorem pathLe_total : ∀ a b : List String, pathLe a b || pathLe b a
  | [], b => by simp [pathLe]
  | a :: as, [] => by simp [pathLe]
  | a :: as, b :: bs => by
    by_cases h : a = b
    · subst h
      simpa [pathLe] using pathLe_total as bs
    · rcases lt_or_gt_of_ne h with h' | h'
      · simp [pathLe, h, Ne.symm h, h', le_of_lt]
      · simp [pathLe, h, Ne.symm h, h', le_of_lt]

theorem pathLe_trans : ∀ a b c : List String, pathLe a b → pathLe b c → pathLe a c
  | [], _, _, _, _ => by simp [pathLe]
  | a :: as, [], _, hab, _ => by simp [pathLe] at hab
  | _ :: _, _ :: _, [], _, hbc => by simp [pathLe] at hbc
  | a :: as, b :: bs, c :: cs, hab, hbc => by
    simp only [pathLe] at *
    by_cases h1 : a = b <;> by_cases h2 : b = c
    · subst h1; subst h2
      simp_all
      exact pathLe_trans _ _ _ hab hbc
    · subst h1; simp_all
    · subst h2; simp_all
    · simp only [if_neg h1] at hab
      simp only [if_neg h2] at hbc
      have hac : a < c := lt_trans (by simpa using hab) (by simpa using hbc)
      simp [ne_of_lt hac, hac]

theorem pathLe_antisymm : ∀ a b : List String, pathLe a b → pathLe b a → a = b
  | [], [], _, _ => rfl
  | [], _ :: _, _, hba => by simp [pathLe] at hba
  | _ :: _, [], hab, _ => by simp [pathLe] at hab
  | a :: as, b :: bs, hab, hba => by
    simp only [pathLe] at hab hba
    by_cases h : a = b
    · subst h
      simp only [if_pos rfl] at hab hba
      rw [pathLe_antisymm as bs hab hba]
    · rw [if_neg h] at hab
      rw [if_neg (Ne.symm h)] at hba
      exact absurd (lt_trans (of_decide_eq_true hab) (of_decide_eq_true hba))
        (lt_irrefl a)

/-- The strict order on the sorted remainder: sorting a duplicate-free list
with `pathLe` yields a strictly increasing list. -/
theorem mergeSort_pathLt_sorted {l : List (List String)} (h : l.Nodup) :
    (l.mergeSort pathLe).Pairwise (fun a b => pathLt a b = true) := by
  have hs : (l.mergeSort pathLe).Pairwise (fun a b => pathLe a b = true) := by
    simpa using List.sorted_mergeSort
      (fun a b c hab hbc => pathLe_trans a b c hab hbc)
      (fun a b => pathLe_total a b) l
  have hn : (l.mergeSort pathLe).Nodup :=
    (List.mergeSort_perm l pathLe).nodup_iff.mpr h
  refine (hs.and hn).imp ?_
  rintro a b ⟨h1, h2⟩
  simp [pathLt, h1, h2]

/-! ### Structure of the `list_maildirs` output -/

theorem list_maildirs_eq {base : List String} {fs : Option (List FSEntry)}
    {initial excluded ds : List (List String)}
    (h : discoveredDirs base fs = .ok ds) :
    list_maildirs base fs initial excluded =
      .ok (initial.filter (fun m =>
            ((ds.filter (fun e => !is_excluded e excluded)).filter
              (fun d => is_initial d initial)).contains m)
        ++ ((ds.filter (fun e => !is_excluded e excluded)).filter
              (fun d => !is_initial d initial)).mergeSort pathLe) := by
  simp [list_maildirs, h]

/-- Checking membership of a priority entry in `found_initial` is the same as
checking it in the whole filtered collection: every priority entry found in
the filtered collection is in the `is_initial` part of the partition. -/
theorem initial_order_eq (F initial : List (List String)) :
    initial.filter (fun m =>
        (F.filter (fun d => is_initial d initial)).contains m)
      = initial.filter (fun m => F.contains m) := by
  apply List.filter_congr
  intro m hm
  have hin : is_initial m initial = true := by
    simp [is_initial, List.elem_eq_mem, hm]
  simp [List.elem_eq_mem, List.mem_filter, hin]

/-- Master description of the output: the priority prefix (the priority list
filtered to entries that survived discovery and exclusion) followed by the
sorted remainder. -/
theorem list_maildirs_split {base : List String} {fs : Option (List FSEntry)}
    {initial excluded ds : List (List String)}
    (h : discoveredDirs base fs = .ok ds) :
    list_maildirs base fs initial excluded =
      .ok (initial.filter (fun m =>
            (ds.filter (fun e => !is_excluded e excluded)).contains m)
        ++ ((ds.filter (fun e => !is_excluded e excluded)).filter
              (fun d => !is_initial d initial)).mergeSort pathLe) := by
  rw [list_maildirs_eq h, initial_order_eq]

theorem list_maildirs_ok_discovered {base : List String} {fs : Option (List FSEntry)}
    {initial excluded out : List (List String)}
    (h : list_maildirs base fs initial excluded = .ok out) :
    ∃ ds, discoveredDirs base fs = .ok ds := by
  unfold list_maildirs at h
  split at h
  · exact absurd h (by simp)
  · next ds hds => exact ⟨ds, hds⟩

/-- Membership in the output is membership in the discovered, non-excluded
collection. -/
theorem mem_list_maildirs {base : List String} {fs : Option (List FSEntry)}
    {initial excluded ds out : List (List String)} {d : List String}
    (hds : discoveredDirs base fs = .ok ds)
    (hout : list_maildirs base fs initial excluded = .ok out) :
    d ∈ out ↔ d ∈ ds ∧ is_excluded d excluded = false := by
  rw [list_maildirs_split hds] at hout
  have hout' := Except.ok.inj hout
  subst hout'
  constructor
  · intro hd
    rcases List.mem_append.mp hd with hd | hd
    · have := (List.mem_filter.mp hd).2
      have hmem : d ∈ ds.filter (fun e => !is_excluded e excluded) := by
        simpa [List.elem_eq_mem] using this
      have := List.mem_filter.mp hmem
      exact ⟨this.1, by simpa using this.2⟩
    · have hd' := List.mem_mergeSort.mp hd
      have := List.mem_filter.mp (List.mem_filter.mp hd').1
      refine ⟨(List.mem_filter.mp (List.mem_filter.mp hd').1).1, ?_⟩
      simpa using (List.mem_filter.mp (List.mem_filter.mp hd').1).2
  · rintro ⟨hmem, hexc⟩
    have hdF : d ∈ ds.filter (fun e => !is_excluded e excluded) :=
      List.mem_filter.mpr ⟨hmem, by simp [hexc]⟩
    by_cases hin : is_initial d initial = true
    · refine List.mem_append.mpr (Or.inl ?_)
      refine List.mem_filter.mpr ⟨?_, ?_⟩
      · simpa [is_initial, List.elem_eq_mem] using hin
      · simpa [List.elem_eq_mem] using hdF
    · refine List.mem_append.mpr (Or.inr ?_)
      exact List.mem_mergeSort.mpr
        (List.mem_filter.mpr ⟨hdF, by simpa using hin⟩)

/-- Under a well-formed filesystem the discovered maildir paths are pairwise
distinct: the walk visits each marker directory once, and distinct marker
paths yield distinct maildir paths. -/
theorem discoveredDirs_nodup {base : List String} {fs : Option (List FSEntry)}
    {ds : List (List String)} (hwf : wfFS fs = true)
    (hds : discoveredDirs base fs = .ok ds) : ds.Nodup := by
  have h1 : ((walkBase base fs).filter is_cur).Nodup :=
    (walkBase_nodup hwf).filter _
  exact mapPaths_nodup hds h1 (fun p hp => (List.mem_filter.mp hp).2)

/-- The total function underlying `maildir_path` on inputs where it does not
panic. -/
def maildirOf (base p : List String) : List String :=
  match maildir_path base p with
  | .ok m => m
  | .error _ => []

theorem mapPaths_eq_map {base : List String} {ps ms : List (List String)}
    (h : mapPaths base ps = .ok ms) : ms = ps.map (maildirOf base) := by
  induction ps generalizing ms with
  | nil => simp only [mapPaths] at h; cases h; rfl
  | cons p ps ih =>
    obtain ⟨m, ms', rfl, hm, hms⟩ := mapPaths_ok_cons h
    simp [List.map_cons, maildirOf, hm, ih hms]

theorem mapPaths_ok_of_forall {base : List String} {ps : List (List String)}
    (h : ∀ p ∈ ps, ∃ m, maildir_path base p = .ok m) :
    ∃ ms, mapPaths base ps = .ok ms := by
  induction ps with
  | nil => exact ⟨[], rfl⟩
  | cons p ps ih =>
    obtain ⟨m, hm⟩ := h p (by simp)
    obtain ⟨ms, hms⟩ := ih (fun q hq => h q (by simp [hq]))
    exact ⟨m :: ms, mapPaths_cons_ok.mpr ⟨hm, hms⟩⟩

/-! ### Concrete filesystems used as witnesses -/

/-- One mailbox `A`. -/
def fsA : Option (List FSEntry) := some [.dir "A" [.dir "cur" []]]

/-- Two mailboxes `A` and `B`, listed in that order. -/
def fsAB : Option (List FSEntry) :=
  some [.dir "A" [.dir "cur" []], .dir "B" [.dir "cur" []]]

/-- The same two mailboxes, traversed in the opposite order. -/
def fsBA : Option (List FSEntry) :=
  some [.dir "B" [.dir "cur" []], .dir "A" [.dir "cur" []]]

/-- A mailbox `Parent` containing a nested mailbox `Parent/Child`. -/
def nestedFS : Option (List FSEntry) :=
  some [.dir "Parent" [.dir "cur" [], .dir "Child" [.dir "cur" []]]]

/-- A base directory that directly contains a `cur` marker: the base itself is
a mailbox. -/
def curFS : Option (List FSEntry) := some [.dir "cur" []]

/-- A string beginning with the shorthand-plus-separator form also begins
with the bare shorthand marker. -/
theorem starts_tilde_of_tilde_slash {path : String}
    (h : starts_with path "~/" = true) : starts_with path "~" = true := by
  simp only [starts_with, List.isPrefixOf_iff_prefix] at h ⊢
  exact List.IsPrefix.trans (by decide) h

/-! ### Claims -/

/-- Claim C5: `expand_path` behaves as a three-case function: a path beginning
with the shorthand-plus-separator form yields the home directory joined with
the remainder after the prefix; a path beginning with the bare shorthand only
yields the home directory joined with the remainder after the marker; any
other path is returned unchanged; and it aborts fatally if and only if
expansion is required (the path begins with the marker) and the home
directory cannot be determined. -/
theorem C5_expand_path_cases (home : Option String) (path : String) :
    (starts_with path "~" = false → expand_path home path = .ok path) ∧
    (∀ h, starts_with path "~/" = true →
      expand_path (some h) path = .ok (pathJoin h (path.drop 2))) ∧
    (∀ h, starts_with path "~" = true → starts_with path "~/" = false →
      expand_path (some h) path = .ok (pathJoin h (path.drop 1))) ∧
    ((∃ e, expand_path home path = .error e) ↔
      (starts_with path "~" = true ∧ home = none)) := by
  refine ⟨?_, ?_, ?_, ?_⟩
  · intro h1
    have h2 : starts_with path "~/" = false := by
      cases hc : starts_with path "~/"
      · rfl
      · exact absurd (starts_tilde_of_tilde_slash hc) (by simp [h1])
    simp [expand_path, h1, h2]
  · intro h hsw
    simp [expand_path, hsw]
  · intro h h1 h2
    simp [expand_path, h1, h2]
  · constructor
    · rintro ⟨e, he⟩
      by_cases h1 : starts_with path "~" = true
      · cases home with
        | none => exact ⟨h1, rfl⟩
        | some hh =>
          exfalso
          by_cases h2 : starts_with path "~/" = true
          · simp [expand_path, h2] at he
          · simp [expand_path, h1,
              (by simpa using h2 : starts_with path "~/" = false)] at he
      · exfalso
        have h1' : starts_with path "~" = false := by simpa using h1
        have h2 : starts_with path "~/" = false := by
          cases hc : starts_with path "~/"
          · rfl
          · exact absurd (starts_tilde_of_tilde_slash hc) (by simp [h1'])
        simp [expand_path, h1', h2] at he
    · rintro ⟨h1, rfl⟩
      by_cases h2 : starts_with path "~/" = true
      · exact ⟨"Could not get your home dir.", by simp [expand_path, h2]⟩
      · exact ⟨"Could not get your home dir.",
          by simp [expand_path, h1, (by simpa using h2 : starts_with path "~/" = false)]⟩

/-- Witness for C5 at concrete inputs: a `~/` path expands under a present
home directory, expansion fails when the home directory is missing, and a
plain path passes through untouched. -/
theorem C5_expand_path_cases_witness :
    expand_path (some "/home/user") "~/Mail" = .ok (pathJoin "/home/user" ("~/Mail".drop 2)) ∧
    (∃ e, expand_path none "~/Mail" = .error e) ∧
    expand_path none "Mail" = .ok "Mail" :=
  ⟨(C5_expand_path_cases (some "/home/user") "~/Mail").2.1 "/home/user" (by decide),
   (C5_expand_path_cases none "~/Mail").2.2.2.mpr ⟨by decide, rfl⟩,
   (C5_expand_path_cases none "Mail").1 (by decide)⟩

/-- Claim C10: when the (expanded) base path does not exist or is not a
directory, `list_maildirs` returns the empty sequence rather than failing,
and the program's output layer prints an empty line. -/
theorem C10_missing_base (base : List String) (initial excluded : List (List String)) :
    list_maildirs base none initial excluded = .ok [] ∧ format_output [] = "" := by
  constructor
  · simp [list_maildirs, discoveredDirs, walkBase, mapPaths]
  · rfl

/-- Claim C1 is violated by the code: with one discovered mailbox `A` and the
priority list `[A, A]`, the output lists `A` twice.  The priority loop checks
membership in `found_initial` but never removes or deduplicates, so a
duplicated priority entry is emitted once per occurrence. -/
theorem C1_duplicate_priority_eval :
    list_maildirs ["Mail"] fsA [["A"], ["A"]] [] = .ok [["A"], ["A"]] ∧
      ¬ ([["A"], ["A"]] : List (List String)).Nodup := by
  constructor
  · simp [list_maildirs, discoveredDirs, fsA, walkBase, walkForest, walkEntry,
      mapPaths, maildir_path, parentPath, stripBase, is_cur, is_excluded, is_initial]
  · decide

/-- Counterexample to claim C6 as stated: when the base path itself ends in
the marker component `cur`, the walk yields the base itself as a marker
directory, and `maildir_path` on it reaches the not-under-base panic branch
(the parent of the base does not lie under the base), aborting
`list_maildirs`. -/
theorem C6_base_marker_counterexample :
    ["cur"] ∈ (walkBase ["cur"] (some [])).filter is_cur ∧
      maildir_path ["cur"] ["cur"] = .error "prefix not found" ∧
      list_maildirs ["cur"] (some []) [] [] = .error "prefix not found" :=
  ⟨by decide, rfl, rfl⟩

/-- Claim C6 as amended: for every marker-directory path produced by the walk
other than the base itself, `maildir_path` reaches neither panic branch and
returns the marker's parent with the base prefix stripped.  (The panic is
reachable only when the base path's own final component is `cur`, making the
walk's root entry itself a marker.) -/
theorem C6_marker_below_base (base q : List String) (fs : Option (List FSEntry))
    (hmem : q ∈ (walkBase base fs).filter is_cur) (hne : q ≠ base) :
    ∃ m, maildir_path base q = .ok m ∧ q.dropLast = base ++ m := by
  have hq := (List.mem_filter.mp hmem).1
  obtain ⟨r, rfl, hr⟩ := mem_walkBase_strict hq hne
  refine ⟨r.dropLast, maildir_path_below hr, ?_⟩
  rw [List.dropLast_append_of_ne_nil base hr]

/-- Witness for the amended C6 at a concrete marker strictly below the base. -/
theorem C6_marker_below_base_witness :
    ∃ m, maildir_path ["Mail"] ["Mail", "A", "cur"] = .ok m ∧
      (["Mail", "A", "cur"] : List String).dropLast = ["Mail"] ++ m :=
  C6_marker_below_base ["Mail"] ["Mail", "A", "cur"] fsA (by decide) (by decide)

/-- Claim C2: the prefix of the output of `list_maildirs` equals the
subsequence of the priority list consisting of exactly those entries present
among the discovered non-excluded mailboxes, in the priority list's order;
priority entries not corresponding to any discovered mailbox are silently
omitted and cause no error. -/
theorem C2_priority_prefix (base : List String) (fs : Option (List FSEntry))
    (initial excluded ds : List (List String))
    (hds : discoveredDirs base fs = .ok ds) :
    ∃ rest, list_maildirs base fs initial excluded =
      .ok ((initial.filter (fun m =>
        (ds.filter (fun e => !is_excluded e excluded)).contains m)) ++ rest) :=
  ⟨_, list_maildirs_split hds⟩

/-- Witness for C2: with mailboxes `A`, `B` discovered and priority list
`[B, Z]`, the output starts with exactly `B` (the nonexistent `Z` is
dropped). -/
theorem C2_priority_prefix_witness :
    ∃ rest, list_maildirs ["Mail"] fsAB [["B"], ["Z"]] [] = .ok ([["B"]] ++ rest) := by
  obtain ⟨rest, h⟩ :=
    C2_priority_prefix ["Mail"] fsAB [["B"], ["Z"]] [] [["A"], ["B"]] rfl
  refine ⟨rest, ?_⟩
  simpa [is_excluded, is_initial] using h

/-- Claim C3: the suffix of the output after the priority prefix is strictly
sorted in the lexicographic path order. -/
theorem C3_remainder_sorted (base : List String) (fs : Option (List FSEntry))
    (initial excluded ds : List (List String))
    (hwf : wfFS fs = true)
    (hds : discoveredDirs base fs = .ok ds) :
    ∃ suffix, list_maildirs base fs initial excluded =
        .ok ((initial.filter (fun m =>
          (ds.filter (fun e => !is_excluded e excluded)).contains m)) ++ suffix)
      ∧ suffix.Pairwise (fun a b => pathLt a b = true) := by
  refine ⟨_, list_maildirs_split hds, ?_⟩
  exact mergeSort_pathLt_sorted (((discoveredDirs_nodup hwf hds).filter _).filter _)

/-- Witness for C3 at a concrete two-mailbox tree. -/
theorem C3_remainder_sorted_witness :
    ∃ suffix, list_maildirs ["Mail"] fsAB [] [] =
        .ok ((([] : List (List String)).filter (fun m =>
          (([["A"], ["B"]] : List (List String)).filter
            (fun e => !is_excluded e [])).contains m)) ++ suffix)
      ∧ suffix.Pairwise (fun a b => pathLt a b = true) :=
  C3_remainder_sorted ["Mail"] fsAB [] [] [["A"], ["B"]] (by decide) rfl

/-- Claim C4: no entry of the output equals any entry of the exclusion list
(even when an excluded path also appears in the priority list), and exclusion
tests exact whole-path component equality — membership in the exclusion
list — never a substring or prefix match. -/
theorem C4_exclusion (base : List String) (fs : Option (List FSEntry))
    (initial excluded out : List (List String))
    (hout : list_maildirs base fs initial excluded = .ok out) :
    (∀ p ∈ out, p ∉ excluded) ∧
      (∀ d : List String, is_excluded d excluded = true ↔ d ∈ excluded) := by
  obtain ⟨ds, hds⟩ := list_maildirs_ok_discovered hout
  refine ⟨?_, ?_⟩
  · intro p hp hmem
    have h1 := ((mem_list_maildirs hds hout).mp hp).2
    have h2 : is_excluded p excluded = true := by
      simp [is_excluded, List.elem_eq_mem, hmem]
    simp [h2] at h1
  · intro d
    simp [is_excluded, List.elem_eq_mem]

/-- Witness for C4: mailbox `A` is both prioritized and excluded; the output
is exactly `B` and contains nothing from the exclusion list. -/
theorem C4_exclusion_witness :
    (∀ p ∈ [(["B"] : List String)], p ∉ [(["A"] : List String)]) ∧
      (∀ d : List String, is_excluded d [["A"]] = true ↔ d ∈ [(["A"] : List String)]) :=
  C4_exclusion ["Mail"] fsAB [["A"]] [["A"]] [["B"]]
    (by simp [list_maildirs, discoveredDirs, fsAB, walkBase, walkForest, walkEntry,
      mapPaths, maildir_path, parentPath, stripBase, is_cur, is_excluded, is_initial])

/-- Claim C7: with nested mailboxes `Parent/cur` and `Parent/Child/cur` both
present and neither relative path excluded, the output contains both `Parent`
and `Parent/Child` as distinct entries: the walk does not prune a subtree
after finding a marker in it. -/
theorem C7_nested_mailboxes (initial excluded : List (List String))
    (h1 : (["Parent"] : List String) ∉ excluded)
    (h2 : (["Parent", "Child"] : List String) ∉ excluded) :
    ∃ out, list_maildirs ["Mail"] nestedFS initial excluded = .ok out ∧
      ["Parent"] ∈ out ∧ ["Parent", "Child"] ∈ out ∧
      (["Parent"] : List String) ≠ ["Parent", "Child"] := by
  have hds : discoveredDirs ["Mail"] nestedFS = .ok [["Parent"], ["Parent", "Child"]] := rfl
  refine ⟨_, list_maildirs_split hds, ?_, ?_, by decide⟩
  · refine (mem_list_maildirs hds (list_maildirs_split hds)).mpr ⟨by decide, ?_⟩
    simp [is_excluded, List.elem_eq_mem, h1]
  · refine (mem_list_maildirs hds (list_maildirs_split hds)).mpr ⟨by decide, ?_⟩
    simp [is_excluded, List.elem_eq_mem, h2]

/-- Witness for C7 with an unrelated exclusion. -/
theorem C7_nested_mailboxes_witness :
    ∃ out, list_maildirs ["Mail"] nestedFS [] [["X"]] = .ok out ∧
      ["Parent"] ∈ out ∧ ["Parent", "Child"] ∈ out ∧
      (["Parent"] : List String) ≠ ["Parent", "Child"] :=
  C7_nested_mailboxes [] [["X"]] (by decide) (by decide)

/-- Claim C9: when the base directory itself directly contains a `cur`
subdirectory and the empty relative path is not excluded, the output includes
the empty relative path (which the output layer formats as two bare quotes
after the plus sign). -/
theorem C9_base_is_mailbox (base : List String) (cs kids : List FSEntry)
    (initial excluded out : List (List String))
    (hmem : FSEntry.dir "cur" kids ∈ cs)
    (hout : list_maildirs base (some cs) initial excluded = .ok out)
    (hexc : ([] : List String) ∉ excluded) :
    [] ∈ out := by
  obtain ⟨ds, hds⟩ := list_maildirs_ok_discovered hout
  have hw : base ++ ["cur"] ∈ walkBase base (some cs) := by
    simp only [walkBase, List.mem_cons]
    exact Or.inr (mem_walkForest_of_mem hmem (by simp [walkEntry]))
  have hfc : base ++ ["cur"] ∈ (walkBase base (some cs)).filter is_cur :=
    List.mem_filter.mpr ⟨hw, by simp [is_cur]⟩
  obtain ⟨m, hmds, hm⟩ := mapPaths_ok_mem hds _ hfc
  have hm0 : maildir_path base (base ++ ["cur"]) = .ok [] := by
    simpa using @maildir_path_below base ["cur"] (by simp)
  have : m = [] := by
    rw [hm] at hm0
    exact Except.ok.inj hm0
  subst this
  refine (mem_list_maildirs hds hout).mpr ⟨hmds, ?_⟩
  simp [is_excluded, List.elem_eq_mem, hexc]

/-- Witness for C9: the base contains a direct `cur` child, and the output is
exactly the empty relative path. -/
theorem C9_base_is_mailbox_witness : ([] : List String) ∈ [([] : List String)] :=
  C9_base_is_mailbox ["Mail"] [.dir "cur" []] [] [] [] [[]]
    (by simp)
    (by simp [list_maildirs, discoveredDirs, walkBase, walkForest, walkEntry,
      mapPaths, maildir_path, parentPath, stripBase, is_cur, is_excluded, is_initial])
    (by simp)

/-- Claim C8: `list_maildirs` is deterministic in its inputs and independent
of the traversal order of the walk: if two filesystem states produce the same
walk entries up to order (the same unchanged filesystem traversed in any
order), the successful output sequences are identical. -/
theorem C8_order_independent (base : List String) (fs1 fs2 : Option (List FSEntry))
    (initial excluded out : List (List String))
    (hperm : (walkBase base fs1).Perm (walkBase base fs2))
    (hout : list_maildirs base fs1 initial excluded = .ok out) :
    list_maildirs base fs2 initial excluded = .ok out := by
  obtain ⟨ds1, hds1⟩ := list_maildirs_ok_discovered hout
  have hcperm : ((walkBase base fs1).filter is_cur).Perm
      ((walkBase base fs2).filter is_cur) := hperm.filter _
  have hex : ∀ p ∈ (walkBase base fs2).filter is_cur,
      ∃ m, maildir_path base p = .ok m := by
    intro p hp
    obtain ⟨m, -, hm⟩ := mapPaths_ok_mem hds1 p (hcperm.mem_iff.mpr hp)
    exact ⟨m, hm⟩
  obtain ⟨ds2, hds2⟩ := mapPaths_ok_of_forall hex
  have hds2' : discoveredDirs base fs2 = .ok ds2 := hds2
  have hdperm : ds1.Perm ds2 := by
    rw [mapPaths_eq_map hds1, mapPaths_eq_map hds2]
    exact hcperm.map _
  have hFperm : (ds1.filter (fun e => !is_excluded e excluded)).Perm
      (ds2.filter (fun e => !is_excluded e excluded)) := hdperm.filter _
  have hpre : initial.filter (fun m =>
        (ds1.filter (fun e => !is_excluded e excluded)).contains m)
      = initial.filter (fun m =>
        (ds2.filter (fun e => !is_excluded e excluded)).contains m) := by
    apply List.filter_congr
    intro m _
    simp [List.elem_eq_mem, hFperm.mem_iff]
  have hRperm : ((ds1.filter (fun e => !is_excluded e excluded)).filter
        (fun d => !is_initial d initial)).Perm
      ((ds2.filter (fun e => !is_excluded e excluded)).filter
        (fun d => !is_initial d initial)) := hFperm.filter _
  haveI : IsAntisymm (List String) (fun a b => pathLe a b = true) :=
    ⟨fun a b => pathLe_antisymm a b⟩
  have hsort : (((ds1.filter (fun e => !is_excluded e excluded)).filter
        (fun d => !is_initial d initial)).mergeSort pathLe)
      = (((ds2.filter (fun e => !is_excluded e excluded)).filter
        (fun d => !is_initial d initial)).mergeSort pathLe) := by
    refine List.eq_of_perm_of_sorted (r := fun a b => pathLe a b = true)
      (((List.mergeSort_perm _ _).trans hRperm).trans (List.mergeSort_perm _ _).symm) ?_ ?_
    · simpa using List.sorted_mergeSort
        (fun a b c hab hbc => pathLe_trans a b c hab hbc)
        (fun a b => pathLe_total a b) _
    · simpa using List.sorted_mergeSort
        (fun a b c hab hbc => pathLe_trans a b c hab hbc)
        (fun a b => pathLe_total a b) _
  rw [list_maildirs_split hds2', ← hpre, ← hsort]
  rw [list_maildirs_split hds1] at hout
  exact hout

/-- Witness for C8: the same two-mailbox filesystem walked in two different
orders gives the same output. -/
theorem C8_order_independent_witness :
    list_maildirs ["Mail"] fsBA [["A"], ["B"]] [] = .ok [["A"], ["B"]] :=
  C8_order_independent ["Mail"] fsAB fsBA [["A"], ["B"]] [] [["A"], ["B"]]
    (by decide)
    (by simp [list_maildirs, discoveredDirs, fsAB, walkBase, walkForest, walkEntry,
      mapPaths, maildir_path, parentPath, stripBase, is_cur, is_excluded, is_initial])
